import Mathlib

/-!
Verification of the QuantileFlow DDSketch specification.

The repository ships the test-suite and the callers of the `QuantileFlow.ddsketch`
package, but the package itself (`core.py`, `mapping/*`, `storage/*`) is not in
the source tree.  Every definition below is therefore modelled from the
specification (`spec.md`), in exact arithmetic: sample values are rationals,
bucket counters are naturals, and the logarithmic mapping is stated over the
real numbers.  Bucket stores are modelled as association lists sorted by
strictly increasing bucket index, which is the iteration order the spec
requires of both storage variants.
-/

namespace QuantileFlow

/-- Modelled from the spec: a bucket counter store (`storage/sparse.py`,
`storage/contiguous.py` are missing from the tree).  A store is a map from
integer bucket indices to counts, iterated in ascending index order; we
represent it as an association list sorted by strictly increasing index,
holding only occupied (positive-count) buckets. -/
abbrev Buckets := List (ℤ × ℕ)

namespace Buckets

/-- Modelled from the spec: `add(i, n)` — add `n` to the counter of bucket `i`,
keeping the list sorted by ascending index. -/
def addN (i : ℤ) (n : ℕ) : Buckets → Buckets
  | [] => [(i, n)]
  | (j, c) :: rest =>
    if i < j then (i, n) :: (j, c) :: rest
    else if i = j then (j, c + n) :: rest
    else (j, c) :: addN i n rest

/-- Modelled from the spec: `add(i)` — add one sample to bucket `i`. -/
def add (i : ℤ) (s : Buckets) : Buckets := addN i 1 s

/-- Modelled from the spec: `total_count` — the sum of all bucket counters. -/
def total_count (s : Buckets) : ℕ := (s.map Prod.snd).sum

/-- Modelled from the spec: `count_at(i)` / `get_count(i)` — the counter of
bucket `i`, zero when the bucket is absent. -/
def get_count (i : ℤ) : Buckets → ℕ
  | [] => 0
  | (j, c) :: rest => if i = j then c else get_count i rest

/-- Modelled from the spec: `remove(i)` — decrement bucket `i` by one;
removing from an absent bucket is a warning and a no-op.  Returns the new
store and whether a count was actually removed. -/
def removeOne (i : ℤ) : Buckets → Buckets × Bool
  | [] => ([], false)
  | (j, c) :: rest =>
    if i = j then (if c ≤ 1 then (rest, true) else ((j, c - 1) :: rest, true))
    else
      let r := removeOne i rest
      ((j, c) :: r.1, r.2)

/-- Modelled from the spec: `merge(other)` — add every bucket of `other` into
the receiving store. -/
def mergeInto (s other : Buckets) : Buckets :=
  other.foldl (fun a p => addN p.1 p.2 a) s

/-- Modelled from the spec, §4.3 collapse protocol (positive store): fold the
extreme low bucket into the next surviving bucket, preserving `total_count`. -/
def collapseSmallest : Buckets → Buckets
  | (_, c) :: (j, d) :: rest => (j, c + d) :: rest
  | l => l

/-- Iterate the collapse step `k` times. -/
def collapseTimes : ℕ → Buckets → Buckets
  | 0, l => l
  | k + 1, l => collapseTimes k (collapseSmallest l)

/-- Modelled from the spec: an `add` under the FIXED bucket-management
strategy with capacity `cap`: the sample is always accepted, and extreme low
buckets are collapsed until at most `cap` distinct buckets remain. -/
def addFixed (cap : ℕ) (i : ℤ) (s : Buckets) : Buckets :=
  collapseTimes ((add i s).length - cap) (add i s)

/-- The store obtained by a sequence of FIXED-strategy adds starting empty. -/
def ofAdds (cap : ℕ) (l : List ℤ) : Buckets :=
  l.foldl (fun a i => addFixed cap i a) []

/-- Modelled from the spec: the DYNAMIC soft cap `⌊100·log₁₀(total_count+1)⌋`,
written with natural-number arithmetic as `Nat.log 10 ((total+1)^100)`. -/
def dynamicCap (total : ℕ) : ℕ := Nat.log 10 ((total + 1) ^ 100)

/-- Modelled from the spec: an `add` under the DYNAMIC strategy: the cap is
recomputed after every insert and extreme buckets are collapsed while the
number of distinct buckets exceeds it. -/
def addDynamic (s : Buckets) (i : ℤ) : Buckets :=
  collapseTimes ((add i s).length - dynamicCap (total_count (add i s))) (add i s)

/-- The store obtained by a sequence of DYNAMIC-strategy adds starting empty. -/
def ofDynAdds (l : List ℤ) : Buckets := l.foldl addDynamic []

/-- The store obtained by a sequence of UNLIMITED-strategy adds (no cap). -/
def ofList (l : List ℤ) : Buckets := l.foldl (fun a i => add i a) []

/-- Well-formedness of a store: indices strictly increasing, counts positive. -/
def Wf (s : Buckets) : Prop :=
  s.Pairwise (fun p q => p.1 < q.1) ∧ ∀ p ∈ s, 0 < p.2

end Buckets

/-- Expand a run-length encoded list: each pair `(v, c)` contributes `c`
copies of `v`, in order. -/
def expandRuns {α : Type} (L : List (α × ℕ)) : List α :=
  (L.map (fun p => List.replicate p.2 p.1)).flatten

/-- The total number of samples described by a run-length encoded list. -/
def runsTotal {α : Type} (L : List (α × ℕ)) : ℕ := (L.map Prod.snd).sum

namespace LogarithmicMapping

/-- Modelled from the spec: the geometric step `γ = (1+α)/(1−α)` between
consecutive DDSketch buckets (`mapping/logarithmic.py` is missing from the
tree). -/
noncomputable def gamma (α : ℝ) : ℝ := (1 + α) / (1 - α)

/-- Modelled from the spec: `compute_bucket_index(v) = ⌈log_γ v⌉` for the
logarithmic mapping, stated in exact real arithmetic. -/
noncomputable def compute_bucket_index (α v : ℝ) : ℤ :=
  ⌈Real.log v / Real.log (gamma α)⌉

/-- Modelled from the spec: `compute_value_from_index(i) = 2·γ^i/(γ+1)`, the
geometric midpoint of the bucket boundaries. -/
noncomputable def compute_value_from_index (α : ℝ) (i : ℤ) : ℝ :=
  2 * gamma α ^ i / (gamma α + 1)

end LogarithmicMapping

/-- Modelled from the spec, §7: the hard error kinds of the DDSketch API. -/
inductive DDError : Type
  | invalidParameter
  | negativeNotAllowed
  | emptySketch
deriving DecidableEq

/-- Modelled from the spec, §3.1: the DDSketch orchestrator state
(`ddsketch/core.py` is missing from the tree).  The mapping is a pure
function pair `(idx, val)` passed to the operations; `zero_count` counts the
samples treated as zero (in exact arithmetic the mapping has no numerical
floor, so these are exactly the zero samples). -/
structure DDSketch : Type where
  relative_accuracy : ℚ
  cont_neg : Bool
  negStore : Buckets
  zero_count : ℕ
  posStore : Buckets
  count : ℕ
deriving DecidableEq

namespace DDSketch

/-- The empty sketch with the given parameters. -/
def init (α : ℚ) (contNeg : Bool) : DDSketch := ⟨α, contNeg, [], 0, [], 0⟩

/-- Modelled from the spec: the constructor — fails if `α ∉ (0,1)`. -/
def new (α : ℚ) (contNeg : Bool) : Except DDError DDSketch :=
  if 0 < α ∧ α < 1 then .ok (init α contNeg) else .error .invalidParameter

/-- Modelled from the spec and the shipped tests: constructing a sketch
without an explicit `cont_neg` argument uses the default `cont_neg = True`. -/
def newDefault (α : ℚ) : Except DDError DDSketch := new α true

/-- The state change of an accepted insert: route the sample to the zero
counter or, by sign, to the positive or negative store at `idx |v|`. -/
def insertVal (idx : ℚ → ℤ) (v : ℚ) (s : DDSketch) : DDSketch :=
  if v = 0 then { s with zero_count := s.zero_count + 1, count := s.count + 1 }
  else if 0 < v then
    { s with posStore := Buckets.add (idx v) s.posStore, count := s.count + 1 }
  else
    { s with negStore := Buckets.add (idx (-v)) s.negStore, count := s.count + 1 }

/-- Modelled from the spec: `insert(v)` — fails if `v < 0` and negative
samples are not accepted, otherwise updates the state. -/
def insert (idx : ℚ → ℤ) (v : ℚ) (s : DDSketch) : Except DDError DDSketch :=
  if v < 0 ∧ s.cont_neg = false then .error .negativeNotAllowed
  else .ok (insertVal idx v s)

/-- The state change of a delete: mirror of insert; deletion of an absent
value is a warning and a no-op, so `count` never goes below the present
count. -/
def deleteVal (idx : ℚ → ℤ) (v : ℚ) (s : DDSketch) : DDSketch :=
  if v = 0 then
    if 0 < s.zero_count then
      { s with zero_count := s.zero_count - 1, count := s.count - 1 }
    else s
  else if 0 < v then
    match Buckets.removeOne (idx v) s.posStore with
    | (st, true) => { s with posStore := st, count := s.count - 1 }
    | (_, false) => s
  else
    match Buckets.removeOne (idx (-v)) s.negStore with
    | (st, true) => { s with negStore := st, count := s.count - 1 }
    | (_, false) => s

/-- Modelled from the spec: `delete(v)` — mirror of insert. -/
def delete (idx : ℚ → ℤ) (v : ℚ) (s : DDSketch) : Except DDError DDSketch :=
  if v < 0 ∧ s.cont_neg = false then .error .negativeNotAllowed
  else .ok (deleteVal idx v s)

/-- The state change of a compatible merge: add `zero_count`, merge each
store, add the counts. -/
def mergeState (s o : DDSketch) : DDSketch :=
  { s with
    negStore := Buckets.mergeInto s.negStore o.negStore,
    posStore := Buckets.mergeInto s.posStore o.posStore,
    zero_count := s.zero_count + o.zero_count,
    count := s.count + o.count }

/-- Modelled from the spec: `merge(other)` — fails if the parameters differ
(the mapping pair is a shared parameter of the operations here, so only `α`
and `cont_neg` are state). -/
def merge (s o : DDSketch) : Except DDError DDSketch :=
  if s.relative_accuracy = o.relative_accuracy ∧ s.cont_neg = o.cont_neg then
    .ok (mergeState s o)
  else .error .invalidParameter

end DDSketch

/-- Modelled from the spec: `rank = ⌈q·count⌉` with `q = 0 → rank = 1`. -/
def rankOf (q : ℚ) (count : ℕ) : ℤ := max 1 ⌈q * (count : ℚ)⌉

/-- The cumulative scan: walk the run-length encoded profile and return the
value of the bucket in which the running count first reaches `rank`. -/
def findCross (rank : ℤ) : List (ℚ × ℕ) → Option ℚ
  | [] => none
  | (v, c) :: rest => if rank ≤ (c : ℤ) then some v else findCross (rank - (c : ℤ)) rest

namespace DDSketch

/-- Modelled from the spec, §4.1 quantile scan order: the negative store in
descending index order contributing `−value(i)`, then `zero_count` samples at
value 0, then the positive store in ascending index order contributing
`value(i)`. -/
def profile (val : ℤ → ℚ) (s : DDSketch) : List (ℚ × ℕ) :=
  s.negStore.reverse.map (fun p => (-(val p.1), p.2)) ++
    (0, s.zero_count) :: s.posStore.map (fun p => (val p.1, p.2))

/-- Modelled from the spec: `quantile(q)` — fails if `q ∉ [0,1]` or
`count = 0`; otherwise scans cumulatively for the bucket containing the
rank-th sample. -/
def quantile (val : ℤ → ℚ) (q : ℚ) (s : DDSketch) : Except DDError ℚ :=
  if q < 0 ∨ 1 < q then .error .invalidParameter
  else if s.count = 0 then .error .emptySketch
  else
    match findCross (rankOf q s.count) (profile val s) with
    | some v => .ok v
    | none => .error .emptySketch

/-- The sketch built by inserting a stream of samples into a fresh sketch
that accepts negatives (every sample of the stream is accepted). -/
def fromStream (idx : ℚ → ℤ) (α : ℚ) (xs : List ℚ) : DDSketch :=
  xs.foldl (fun s v => insertVal idx v s) (init α true)

/-- The spec's count invariant, §3.1:
`count = zero_count + sum(positive_store) + sum(negative_store)`. -/
def invariantCount (s : DDSketch) : Prop :=
  s.count = s.zero_count + Buckets.total_count s.posStore + Buckets.total_count s.negStore

/-- Both stores are well-formed association lists. -/
def WfStores (s : DDSketch) : Prop :=
  Buckets.Wf s.posStore ∧ Buckets.Wf s.negStore

/-- The sketches reachable from a freshly constructed sketch by successful
insert, delete and merge operations (all sharing the mapping `idx`). -/
inductive Reachable (idx : ℚ → ℤ) : DDSketch → Prop
  | new : ∀ (α : ℚ) (b : Bool) (s : DDSketch), DDSketch.new α b = .ok s → Reachable idx s
  | insert : ∀ {s s' : DDSketch} (v : ℚ),
      Reachable idx s → DDSketch.insert idx v s = .ok s' → Reachable idx s'
  | delete : ∀ {s s' : DDSketch} (v : ℚ),
      Reachable idx s → DDSketch.delete idx v s = .ok s' → Reachable idx s'
  | merge : ∀ {s t s' : DDSketch},
      Reachable idx s → Reachable idx t → DDSketch.merge s t = .ok s' → Reachable idx s'

end DDSketch

/-- The empirical quantile of a stream at the same rank convention the sketch
uses: the `rank`-th smallest sample, `rank = max(1, ⌈q·|S|⌉)`. -/
def trueQuantile (q : ℚ) (xs : List ℚ) : ℚ :=
  (List.insertionSort (· ≤ ·) xs).getD (rankOf q xs.length - 1).toNat 0

/-- The per-sample reconstruction the sketch reports for a sample of the
stream: `value(index(v))` adjusted for sign, and 0 for the zero bucket. -/
def estimateOf (idx : ℚ → ℤ) (val : ℤ → ℚ) (v : ℚ) : ℚ :=
  if v = 0 then 0 else if 0 < v then val (idx v) else -(val (idx (-v)))

/-- The bucket indices of the positive samples of a stream, in order. -/
def posIndices (idx : ℚ → ℤ) (xs : List ℚ) : List ℤ :=
  (xs.filter (fun v => decide (0 < v))).map idx

/-- The bucket indices of the negative samples of a stream (indices of their
magnitudes), in order. -/
def negIndices (idx : ℚ → ℤ) (xs : List ℚ) : List ℤ :=
  (xs.filter (fun v => decide (v < 0))).map (fun v => idx (-v))

/-- The number of zero samples of a stream. -/
def zeroCountOf (xs : List ℚ) : ℕ := (xs.filter (fun v => decide (v = 0))).length

namespace Buckets

theorem total_count_nil : total_count [] = 0 := rfl

theorem total_count_cons (j : ℤ) (c : ℕ) (rest : Buckets) :
    total_count ((j, c) :: rest) = c + total_count rest := by
  simp [total_count]

theorem total_count_addN (i : ℤ) (n : ℕ) (s : Buckets) :
    total_count (addN i n s) = total_count s + n := by
  induction s with
  | nil => simp [addN, total_count]
  | cons p rest ih =>
    obtain ⟨j, c⟩ := p
    by_cases h1 : i < j
    · simp [addN, h1, total_count_cons]
      omega
    · by_cases h2 : i = j
      · simp [addN, h1, h2, total_count_cons]
        omega
      · simp [addN, h1, h2, total_count_cons, ih]
        omega

theorem total_count_add (i : ℤ) (s : Buckets) :
    total_count (add i s) = total_count s + 1 := total_count_addN i 1 s

theorem total_count_collapseSmallest (s : Buckets) :
    total_count (collapseSmallest s) = total_count s := by
  match s with
  | [] => rfl
  | [p] => rfl
  | (i, c) :: (j, d) :: rest =>
    simp [collapseSmallest, total_count_cons]
    omega

theorem total_count_collapseTimes (k : ℕ) (s : Buckets) :
    total_count (collapseTimes k s) = total_count s := by
  induction k generalizing s with
  | zero => rfl
  | succ k ih => simp [collapseTimes, ih, total_count_collapseSmallest]

theorem length_addN_le (i : ℤ) (n : ℕ) (s : Buckets) :
    (addN i n s).length ≤ s.length + 1 := by
  induction s with
  | nil => simp [addN]
  | cons p rest ih =>
    obtain ⟨j, c⟩ := p
    by_cases h1 : i < j
    · simp [addN, h1]
    · by_cases h2 : i = j
      · simp [addN, h1, h2]
      · simp [addN, h1, h2]
        omega

theorem length_collapseSmallest (s : Buckets) :
    (collapseSmallest s).length = if s.length ≤ 1 then s.length else s.length - 1 := by
  match s with
  | [] => rfl
  | [p] => rfl
  | (i, c) :: (j, d) :: rest => simp [collapseSmallest]

theorem length_collapseTimes_le (k : ℕ) (s : Buckets) :
    (collapseTimes k s).length ≤ max (s.length - k) 1 := by
  induction k generalizing s with
  | zero =>
    simp only [collapseTimes]
    omega
  | succ k ih =>
    have h := ih (collapseSmallest s)
    have hl := length_collapseSmallest s
    simp only [collapseTimes]
    by_cases hc : s.length ≤ 1
    · rw [if_pos hc] at hl
      omega
    · rw [if_neg hc] at hl
      omega

theorem length_addFixed_le (cap : ℕ) (hcap : 1 ≤ cap) (i : ℤ) (s : Buckets) :
    (addFixed cap i s).length ≤ cap := by
  unfold addFixed
  have h1 := length_collapseTimes_le ((add i s).length - cap) (add i s)
  omega

theorem total_count_addFixed (cap : ℕ) (i : ℤ) (s : Buckets) :
    total_count (addFixed cap i s) = total_count s + 1 := by
  unfold addFixed
  rw [total_count_collapseTimes, total_count_add]

theorem ofAdds_length_le (cap : ℕ) (hcap : 1 ≤ cap) (l : List ℤ) :
    (ofAdds cap l).length ≤ cap := by
  suffices h : ∀ s : Buckets, s.length ≤ cap →
      (l.foldl (fun a i => addFixed cap i a) s).length ≤ cap by
    exact h [] (by simp)
  induction l with
  | nil => intro s hs; simpa using hs
  | cons x xs ih =>
    intro s hs
    exact ih (addFixed cap x s) (length_addFixed_le cap hcap x s)

theorem ofAdds_total_count (cap : ℕ) (l : List ℤ) :
    total_count (ofAdds cap l) = l.length := by
  suffices h : ∀ s : Buckets,
      total_count (l.foldl (fun a i => addFixed cap i a) s) = total_count s + l.length by
    simpa [total_count] using h []
  induction l with
  | nil => intro s; simp
  | cons x xs ih =>
    intro s
    simp only [List.foldl_cons, List.length_cons]
    rw [ih (addFixed cap x s), total_count_addFixed]
    omega

/-- The dynamic cap is at least 1 as soon as one sample has been inserted. -/
theorem one_le_dynamicCap (n : ℕ) : 1 ≤ dynamicCap (n + 1) := by
  unfold dynamicCap
  have h10 : 10 ≤ (n + 1 + 1) ^ 100 := by
    calc (10 : ℕ) ≤ 2 ^ 100 := by norm_num
    _ ≤ (n + 1 + 1) ^ 100 := Nat.pow_le_pow_left (by omega) 100
  exact Nat.log_pos (by norm_num) h10

theorem total_count_addDynamic (s : Buckets) (i : ℤ) :
    total_count (addDynamic s i) = total_count s + 1 := by
  unfold addDynamic
  rw [total_count_collapseTimes, total_count_add]

theorem length_addDynamic_le (s : Buckets) (i : ℤ) :
    (addDynamic s i).length ≤ dynamicCap (total_count (addDynamic s i)) := by
  unfold addDynamic
  rw [total_count_collapseTimes]
  have hcap : 1 ≤ dynamicCap (total_count (add i s)) := by
    have := total_count_add i s
    have h : total_count (add i s) = total_count s + 1 := this
    rw [h]
    exact one_le_dynamicCap (total_count s)
  have h1 := length_collapseTimes_le ((add i s).length - dynamicCap (total_count (add i s)))
    (add i s)
  omega

theorem ofDynAdds_length_le_cap (l : List ℤ) :
    (ofDynAdds l).length ≤ dynamicCap (total_count (ofDynAdds l)) := by
  unfold ofDynAdds
  induction l using List.reverseRecOn with
  | nil => simp [total_count, dynamicCap]
  | append_singleton xs x _ =>
    rw [List.foldl_append]
    exact length_addDynamic_le _ x

theorem ofDynAdds_total_count (l : List ℤ) :
    total_count (ofDynAdds l) = l.length := by
  unfold ofDynAdds
  induction l using List.reverseRecOn with
  | nil => simp [total_count]
  | append_singleton xs x ih =>
    rw [List.foldl_append]
    simp only [List.foldl_cons, List.foldl_nil]
    rw [total_count_addDynamic]
    simp [ih]

/-- The natural-number form of the dynamic cap agrees with the spec's
real-number formula `⌊100·log₁₀(N+1)⌋`. -/
theorem dynamicCap_eq_floor (n : ℕ) :
    (dynamicCap n : ℤ) = ⌊(100 : ℝ) * Real.logb 10 (n + 1)⌋ := by
  unfold dynamicCap
  have h1 : ((100 : ℝ)) * Real.logb 10 (n + 1) =
      Real.logb ((10 : ℕ) : ℝ) (((n + 1) ^ 100 : ℕ) : ℝ) := by
    push_cast
    rw [Real.logb_pow]
    norm_num
  rw [h1, Real.floor_logb_natCast (by positivity), Int.log_natCast]

theorem Wf_nil : Wf [] := by
  constructor
  · exact List.Pairwise.nil
  · intro p hp
    simp at hp

theorem fst_mem_addN {i : ℤ} {n : ℕ} {p : ℤ × ℕ} :
    ∀ {s : Buckets}, p ∈ addN i n s → p.1 = i ∨ p ∈ s := by
  intro s
  induction s with
  | nil =>
    intro hp
    simp [addN] at hp
    left
    rw [hp]
  | cons q rest ih =>
    obtain ⟨j, c⟩ := q
    intro hp
    by_cases h1 : i < j
    · simp [addN, h1] at hp
      rcases hp with h | h | h
      · left; rw [h]
      · right; simp [h]
      · right; simp [h]
    · by_cases h2 : i = j
      · simp [addN, h1, h2] at hp
        rcases hp with h | h
        · left; rw [h, h2]
        · right; simp [h]
      · simp [addN, h1, h2] at hp
        rcases hp with h | h
        · right; simp [h]
        · rcases ih h with h3 | h3
          · left; exact h3
          · right; simp [h3]

theorem snd_pos_mem_addN {i : ℤ} {n : ℕ} (hn : 0 < n) {p : ℤ × ℕ} :
    ∀ {s : Buckets}, (∀ q ∈ s, 0 < q.2) → p ∈ addN i n s → 0 < p.2 := by
  intro s
  induction s with
  | nil =>
    intro _ hp
    simp [addN] at hp
    rw [hp]
    exact hn
  | cons q rest ih =>
    obtain ⟨j, c⟩ := q
    intro hs hp
    by_cases h1 : i < j
    · simp [addN, h1] at hp
      rcases hp with h | h | h
      · rw [h]; exact hn
      · rw [h]; exact hs (j, c) (by simp)
      · exact hs p (by simp [h])
    · by_cases h2 : i = j
      · simp [addN, h1, h2] at hp
        rcases hp with h | h
        · rw [h]
          simp only []
          have := hs (j, c) (by simp)
          omega
        · exact hs p (by simp [h])
      · simp [addN, h1, h2] at hp
        rcases hp with h | h
        · rw [h]; exact hs (j, c) (by simp)
        · exact ih (fun q hq => hs q (by simp [hq])) h

theorem Wf_addN (i : ℤ) {n : ℕ} (hn : 0 < n) :
    ∀ {s : Buckets}, Wf s → Wf (addN i n s) := by
  intro s
  induction s with
  | nil =>
    intro _
    constructor
    · simp [addN]
    · intro p hp
      simp [addN] at hp
      rw [hp]
      exact hn
  | cons q rest ih =>
    obtain ⟨j, c⟩ := q
    intro hs
    obtain ⟨hpair, hpos⟩ := hs
    rw [List.pairwise_cons] at hpair
    obtain ⟨hhead, htail⟩ := hpair
    by_cases h1 : i < j
    · constructor
      · simp only [addN, if_pos h1]
        rw [List.pairwise_cons, List.pairwise_cons]
        refine ⟨?_, ⟨hhead, htail⟩⟩
        intro b hb
        simp at hb
        rcases hb with h | h
        · rw [h]
          exact h1
        · exact lt_trans h1 (hhead b h)
      · intro p hp
        exact snd_pos_mem_addN hn hpos hp
    · by_cases h2 : i = j
      · constructor
        · simp only [addN, if_neg h1, if_pos h2]
          rw [List.pairwise_cons]
          exact ⟨hhead, htail⟩
        · intro p hp
          exact snd_pos_mem_addN hn hpos hp
      · constructor
        · simp only [addN, if_neg h1, if_neg h2]
          rw [List.pairwise_cons]
          constructor
          · intro b hb
            rcases fst_mem_addN hb with h | h
            · rw [h]
              omega
            · exact hhead b h
          · exact (ih ⟨htail, fun p hp => hpos p (by simp [hp])⟩).1
        · intro p hp
          exact snd_pos_mem_addN hn hpos hp

theorem Wf_add (i : ℤ) {s : Buckets} (hs : Wf s) : Wf (add i s) :=
  Wf_addN i (by omega) hs

theorem Wf_ofList (l : List ℤ) : Wf (ofList l) := by
  suffices h : ∀ s : Buckets, Wf s → Wf (l.foldl (fun a i => add i a) s) from h [] Wf_nil
  induction l with
  | nil => intro s hs; simpa using hs
  | cons x xs ih =>
    intro s hs
    exact ih (add x s) (Wf_add x hs)

theorem Wf_mergeInto : ∀ {t s : Buckets}, Wf s → Wf t → Wf (mergeInto s t) := by
  intro t
  induction t with
  | nil => intro s hs _; simpa [mergeInto] using hs
  | cons q t' ih =>
    obtain ⟨j, c⟩ := q
    intro s hs ht
    obtain ⟨hpair, hpos⟩ := ht
    rw [List.pairwise_cons] at hpair
    have hc : 0 < c := hpos (j, c) (by simp)
    have h1 : Wf (addN j c s) := Wf_addN j hc hs
    have h2 : Wf t' := ⟨hpair.2, fun p hp => hpos p (by simp [hp])⟩
    simpa [mergeInto] using ih h1 h2

theorem Wf_collapseSmallest {s : Buckets} (hs : Wf s) : Wf (collapseSmallest s) := by
  match s with
  | [] => exact hs
  | [p] => exact hs
  | (i, c) :: (j, d) :: rest =>
    obtain ⟨hpair, hpos⟩ := hs
    rw [List.pairwise_cons] at hpair
    obtain ⟨hh, ht⟩ := List.pairwise_cons.mp hpair.2
    constructor
    · show List.Pairwise (fun p q => p.1 < q.1) ((j, c + d) :: rest)
      exact List.pairwise_cons.mpr ⟨fun b hb => hh b hb, ht⟩
    · intro p hp
      simp only [collapseSmallest] at hp
      rcases List.mem_cons.mp hp with h | h
      · rw [h]
        have := hpos (j, d) (by simp)
        simp only [] at this ⊢
        omega
      · exact hpos p (by simp [h])

theorem Wf_collapseTimes (k : ℕ) : ∀ {s : Buckets}, Wf s → Wf (collapseTimes k s) := by
  induction k with
  | zero => intro s hs; exact hs
  | succ k ih =>
    intro s hs
    exact ih (Wf_collapseSmallest hs)

theorem Wf_addFixed (cap : ℕ) (i : ℤ) {s : Buckets} (hs : Wf s) : Wf (addFixed cap i s) :=
  Wf_collapseTimes _ (Wf_add i hs)

theorem Wf_ofAdds (cap : ℕ) (l : List ℤ) : Wf (ofAdds cap l) := by
  suffices h : ∀ s : Buckets, Wf s → Wf (l.foldl (fun a i => addFixed cap i a) s) from
    h [] Wf_nil
  induction l with
  | nil => intro s hs; simpa using hs
  | cons x xs ih =>
    intro s hs
    exact ih (addFixed cap x s) (Wf_addFixed cap x hs)

theorem Wf_addDynamic {s : Buckets} (hs : Wf s) (i : ℤ) : Wf (addDynamic s i) :=
  Wf_collapseTimes _ (Wf_add i hs)

theorem Wf_ofDynAdds (l : List ℤ) : Wf (ofDynAdds l) := by
  suffices h : ∀ s : Buckets, Wf s → Wf (l.foldl addDynamic s) from h [] Wf_nil
  induction l with
  | nil => intro s hs; simpa using hs
  | cons x xs ih =>
    intro s hs
    exact ih (addDynamic s x) (Wf_addDynamic hs x)

theorem mem_removeOne_fst {i : ℤ} {p : ℤ × ℕ} :
    ∀ {s : Buckets}, p ∈ (removeOne i s).1 → ∃ c : ℕ, (p.1, c) ∈ s ∧ p.2 ≤ c := by
  intro s
  induction s with
  | nil =>
    intro hp
    simp [removeOne] at hp
  | cons q rest ih =>
    obtain ⟨j, c⟩ := q
    intro hp
    by_cases h1 : i = j
    · by_cases h2 : c ≤ 1
      · simp only [removeOne, if_pos h1, if_pos h2] at hp
        exact ⟨p.2, by simp [hp], le_refl _⟩
      · simp only [removeOne, if_pos h1, if_neg h2] at hp
        rcases List.mem_cons.mp hp with h | h
        · subst h
          exact ⟨c, by simp, by simp⟩
        · exact ⟨p.2, by simp [h], le_refl _⟩
    · simp only [removeOne, if_neg h1] at hp
      rcases List.mem_cons.mp hp with h | h
      · subst h
        exact ⟨c, by simp, le_refl _⟩
      · obtain ⟨e, he, hle⟩ := ih h
        exact ⟨e, by simp [he], hle⟩

theorem Wf_removeOne (i : ℤ) : ∀ {s : Buckets}, Wf s → Wf (removeOne i s).1 := by
  intro s
  induction s with
  | nil => intro _; simpa [removeOne] using Wf_nil
  | cons q rest ih =>
    obtain ⟨j, c⟩ := q
    intro hs
    obtain ⟨hpair, hpos⟩ := hs
    rw [List.pairwise_cons] at hpair
    obtain ⟨hhead, htail⟩ := hpair
    have hwrest : Wf rest := ⟨htail, fun p hp => hpos p (by simp [hp])⟩
    by_cases h1 : i = j
    · by_cases h2 : c ≤ 1
      · simpa only [removeOne, if_pos h1, if_pos h2] using hwrest
      · simp only [removeOne, if_pos h1, if_neg h2]
        constructor
        · exact List.pairwise_cons.mpr ⟨fun b hb => hhead b hb, htail⟩
        · intro p hp
          rcases List.mem_cons.mp hp with h | h
          · rw [h]
            simp only []
            omega
          · exact hwrest.2 p h
    · simp only [removeOne, if_neg h1]
      have hwr := ih hwrest
      constructor
      · rw [List.pairwise_cons]
        constructor
        · intro b hb
          obtain ⟨e, he, _⟩ := mem_removeOne_fst hb
          exact hhead (b.1, e) he
        · exact hwr.1
      · intro p hp
        rcases List.mem_cons.mp hp with h | h
        · rw [h]
          exact hpos (j, c) (by simp)
        · exact hwr.2 p h

theorem removeOne_total_count (i : ℤ) :
    ∀ {s : Buckets}, (∀ p ∈ s, 0 < p.2) → (removeOne i s).2 = true →
      total_count (removeOne i s).1 + 1 = total_count s := by
  intro s
  induction s with
  | nil =>
    intro _ h
    simp [removeOne] at h
  | cons q rest ih =>
    obtain ⟨j, c⟩ := q
    intro hpos h
    by_cases h1 : i = j
    · by_cases h2 : c ≤ 1
      · simp only [removeOne, if_pos h1, if_pos h2] at h ⊢
        have : 0 < c := hpos (j, c) (by simp)
        rw [total_count_cons]
        omega
      · simp only [removeOne, if_pos h1, if_neg h2] at h ⊢
        rw [total_count_cons, total_count_cons]
        omega
    · simp only [removeOne, if_neg h1] at h ⊢
      have hrec := ih (fun p hp => hpos p (by simp [hp])) h
      rw [total_count_cons, total_count_cons]
      omega

theorem expandRuns_nil {α : Type} : expandRuns ([] : List (α × ℕ)) = [] := rfl

theorem expandRuns_cons {α : Type} (p : α × ℕ) (L : List (α × ℕ)) :
    expandRuns (p :: L) = List.replicate p.2 p.1 ++ expandRuns L := by
  simp [expandRuns]

theorem expandRuns_append {α : Type} (L₁ L₂ : List (α × ℕ)) :
    expandRuns (L₁ ++ L₂) = expandRuns L₁ ++ expandRuns L₂ := by
  simp [expandRuns]

theorem length_expandRuns {α : Type} (L : List (α × ℕ)) :
    (expandRuns L).length = runsTotal L := by
  induction L with
  | nil => rfl
  | cons p L ih =>
    rw [expandRuns_cons, List.length_append, List.length_replicate, ih]
    simp [runsTotal]

theorem mem_expandRuns {α : Type} {x : α} :
    ∀ {L : List (α × ℕ)}, x ∈ expandRuns L → ∃ p ∈ L, x = p.1 ∧ 0 < p.2 := by
  intro L
  induction L with
  | nil =>
    intro hx
    simp [expandRuns] at hx
  | cons p L ih =>
    intro hx
    rw [expandRuns_cons, List.mem_append] at hx
    rcases hx with h | h
    · rw [List.mem_replicate] at h
      refine ⟨p, by simp, h.2, ?_⟩
      omega
    · obtain ⟨q, hq, hxq, hqpos⟩ := ih h
      exact ⟨q, by simp [hq], hxq, hqpos⟩

theorem expandRuns_map_fst {α β : Type} (f : α → β) (L : List (α × ℕ)) :
    expandRuns (L.map (fun p => (f p.1, p.2))) = (expandRuns L).map f := by
  induction L with
  | nil => rfl
  | cons p L ih =>
    rw [List.map_cons, expandRuns_cons, expandRuns_cons, List.map_append, ← ih,
      List.map_replicate]

theorem expandRuns_reverse_perm {α : Type} (L : List (α × ℕ)) :
    (expandRuns L.reverse).Perm (expandRuns L) := by
  induction L with
  | nil => exact List.Perm.refl _
  | cons p L ih =>
    rw [List.reverse_cons, expandRuns_append]
    have h3 : expandRuns (p :: L) = expandRuns [p] ++ expandRuns L := by
      rw [expandRuns_cons p L, expandRuns_cons p ([] : List (α × ℕ)), expandRuns_nil,
        List.append_nil]
    rw [h3]
    exact (ih.append_right _).trans List.perm_append_comm

theorem expand_addN_perm (i : ℤ) (n : ℕ) :
    ∀ s : Buckets, (expandRuns (addN i n s)).Perm (List.replicate n i ++ expandRuns s) := by
  intro s
  induction s with
  | nil =>
    simp only [addN]
    rw [expandRuns_cons, expandRuns_nil]
  | cons q rest ih =>
    obtain ⟨j, c⟩ := q
    by_cases h1 : i < j
    · simp only [addN, if_pos h1]
      rw [expandRuns_cons]
    · by_cases h2 : i = j
      · simp only [addN, if_neg h1, if_pos h2]
        subst h2
        rw [expandRuns_cons, expandRuns_cons]
        rw [← List.append_assoc, ← List.replicate_add, Nat.add_comm n c]
      · simp only [addN, if_neg h1, if_neg h2]
        rw [expandRuns_cons, expandRuns_cons]
        have h3 := (ih).append_left (List.replicate c j)
        refine h3.trans ?_
        rw [← List.append_assoc, ← List.append_assoc]
        exact List.perm_append_comm.append_right _

theorem expand_add_perm (i : ℤ) (s : Buckets) :
    (expandRuns (add i s)).Perm (i :: expandRuns s) := by
  have h := expand_addN_perm i 1 s
  simpa using h

theorem expand_ofList_perm (l : List ℤ) : (expandRuns (ofList l)).Perm l := by
  suffices h : ∀ s : Buckets,
      (expandRuns (l.foldl (fun a i => add i a) s)).Perm (l ++ expandRuns s) by
    simpa [ofList, expandRuns_nil] using h []
  induction l with
  | nil =>
    intro s
    rw [List.foldl_nil, List.nil_append]
  | cons x xs ih =>
    intro s
    simp only [List.foldl_cons, List.cons_append]
    refine (ih (add x s)).trans ?_
    refine ((expand_add_perm x s).append_left xs).trans ?_
    exact List.perm_middle

theorem expand_mergeInto_perm :
    ∀ (t s : Buckets), (expandRuns (mergeInto s t)).Perm (expandRuns s ++ expandRuns t) := by
  intro t
  induction t with
  | nil =>
    intro s
    rw [mergeInto, List.foldl_nil, expandRuns_nil, List.append_nil]
  | cons q t' ih =>
    obtain ⟨j, c⟩ := q
    intro s
    have h0 : mergeInto s ((j, c) :: t') = mergeInto (addN j c s) t' := rfl
    rw [h0, expandRuns_cons]
    refine (ih (addN j c s)).trans ?_
    refine ((expand_addN_perm j c s).append_right _).trans ?_
    refine (List.perm_append_comm.append_right _).trans ?_
    rw [List.append_assoc]

theorem expand_ne_nil_of_head {i : ℤ} {c : ℕ} {rest : Buckets} (hc : 0 < c) :
    expandRuns ((i, c) :: rest) ≠ [] := by
  rw [expandRuns_cons]
  intro h
  have := congrArg List.length h
  rw [List.length_append, List.length_replicate] at this
  simp at this
  omega

theorem eq_of_wf_of_perm :
    ∀ {s t : Buckets}, Wf s → Wf t → (expandRuns s).Perm (expandRuns t) → s = t := by
  intro s
  induction s with
  | nil =>
    intro t _ ht hperm
    cases t with
    | nil => rfl
    | cons q t' =>
      obtain ⟨j, c⟩ := q
      have hc : 0 < c := ht.2 (j, c) (by simp)
      have h1 : expandRuns ((j, c) :: t') = [] := (hperm.symm).eq_nil
      exact absurd h1 (expand_ne_nil_of_head hc)
  | cons q s' ih =>
    intro t hs ht hperm
    obtain ⟨i, c⟩ := q
    cases t with
    | nil =>
      have hc : 0 < c := hs.2 (i, c) (by simp)
      have h1 : expandRuns ((i, c) :: s') = [] := hperm.eq_nil
      exact absurd h1 (expand_ne_nil_of_head hc)
    | cons r t' =>
      obtain ⟨j, d⟩ := r
      have hc : 0 < c := hs.2 (i, c) (by simp)
      have hd : 0 < d := ht.2 (j, d) (by simp)
      have hskeys : ∀ p ∈ s', i < p.1 := by
        intro p hp
        exact (List.pairwise_cons.mp hs.1).1 p hp
      have htkeys : ∀ p ∈ t', j < p.1 := by
        intro p hp
        exact (List.pairwise_cons.mp ht.1).1 p hp
      have hij : i = j := by
        have hmi : i ∈ expandRuns ((j, d) :: t') := by
          refine hperm.mem_iff.mp ?_
          rw [expandRuns_cons, List.mem_append]
          left
          exact List.mem_replicate.mpr ⟨by omega, rfl⟩
        have hmj : j ∈ expandRuns ((i, c) :: s') := by
          refine hperm.mem_iff.mpr ?_
          rw [expandRuns_cons, List.mem_append]
          left
          exact List.mem_replicate.mpr ⟨by omega, rfl⟩
        obtain ⟨p, hp, hip, _⟩ := mem_expandRuns hmi
        obtain ⟨p', hp', hjp', _⟩ := mem_expandRuns hmj
        rcases List.mem_cons.mp hp with h | h
        · rw [h] at hip
          exact hip
        · rcases List.mem_cons.mp hp' with h' | h'
          · rw [h'] at hjp'
            omega
          · have hx := htkeys p h
            have hy := hskeys p' h'
            omega
      subst hij
      have hnotin_s' : ∀ x ∈ expandRuns s', x ≠ i := by
        intro x hx
        obtain ⟨p, hp, hxp, _⟩ := mem_expandRuns hx
        have := hskeys p hp
        omega
      have hnotin_t' : ∀ x ∈ expandRuns t', x ≠ i := by
        intro x hx
        obtain ⟨p, hp, hxp, _⟩ := mem_expandRuns hx
        have := htkeys p hp
        omega
      have hcount := hperm.count_eq i
      rw [expandRuns_cons, expandRuns_cons, List.count_append, List.count_append] at hcount
      have hzs : (expandRuns s').count i = 0 := by
        rw [List.count_eq_zero]
        intro hmem
        exact hnotin_s' i hmem rfl
      have hzt : (expandRuns t').count i = 0 := by
        rw [List.count_eq_zero]
        intro hmem
        exact hnotin_t' i hmem rfl
      have hrepc : (List.replicate c i).count i = c := List.count_replicate_self i c
      have hrepd : (List.replicate d i).count i = d := List.count_replicate_self i d
      have hcd : c = d := by
        rw [hrepc, hrepd, hzs, hzt] at hcount
        omega
      subst hcd
      have hperm' : (expandRuns s').Perm (expandRuns t') := by
        rw [List.perm_iff_count]
        intro a
        have h := hperm.count_eq a
        rw [expandRuns_cons, expandRuns_cons, List.count_append, List.count_append] at h
        omega
      have hs' : Wf s' :=
        ⟨(List.pairwise_cons.mp hs.1).2, fun p hp => hs.2 p (by simp [hp])⟩
      have ht' : Wf t' :=
        ⟨(List.pairwise_cons.mp ht.1).2, fun p hp => ht.2 p (by simp [hp])⟩
      rw [ih hs' ht' hperm']

theorem mergeInto_ofList (a b : List ℤ) :
    mergeInto (ofList a) (ofList b) = ofList (a ++ b) := by
  refine eq_of_wf_of_perm (Wf_mergeInto (Wf_ofList a) (Wf_ofList b)) (Wf_ofList (a ++ b)) ?_
  refine (expand_mergeInto_perm (ofList b) (ofList a)).trans ?_
  refine (((expand_ofList_perm a).append ((expand_ofList_perm b)))).trans ?_
  exact (expand_ofList_perm (a ++ b)).symm

theorem pairwise_le_replicate (n : ℕ) (a : ℚ) :
    (List.replicate n a).Pairwise (· ≤ ·) := by
  induction n with
  | zero => exact List.Pairwise.nil
  | succ n ih =>
    rw [List.replicate_succ, List.pairwise_cons]
    refine ⟨?_, ih⟩
    intro b hb
    rw [List.mem_replicate] at hb
    rw [hb.2]

theorem sorted_expandRuns :
    ∀ {L : List (ℚ × ℕ)}, L.Pairwise (fun p q => p.1 ≤ q.1) →
      (expandRuns L).Pairwise (· ≤ ·) := by
  intro L
  induction L with
  | nil =>
    intro _
    exact List.Pairwise.nil
  | cons p L ih =>
    intro h
    rw [expandRuns_cons, List.pairwise_append]
    refine ⟨pairwise_le_replicate p.2 p.1, ih (List.pairwise_cons.mp h).2, ?_⟩
    intro x hx y hy
    rw [List.mem_replicate] at hx
    obtain ⟨q, hq, hyq, _⟩ := mem_expandRuns hy
    rw [hx.2, hyq]
    exact (List.pairwise_cons.mp h).1 q hq

/-- C8: under the FIXED bucket-management strategy with capacity
`max_buckets = cap ≥ 1`, after every sequence of adds the number of distinct
occupied buckets is at most `cap`, no add is ever rejected (the store's
`total_count` counts every single add), and a collapse preserves
`total_count`. -/
theorem fixed_cap_invariant (cap : ℕ) (hcap : 1 ≤ cap) (l : List ℤ) (k : ℕ) (s : Buckets) :
    (ofAdds cap l).length ≤ cap ∧
      total_count (ofAdds cap l) = l.length ∧
      (∀ p ∈ ofAdds cap l, 0 < p.2) ∧
      total_count (collapseTimes k s) = total_count s :=
  ⟨ofAdds_length_le cap hcap l, ofAdds_total_count cap l,
    (Wf_ofAdds cap l).2, total_count_collapseTimes k s⟩

/-- Witness for C8 at capacity 3 and the add sequence `[0,1,2,3,4]`. -/
theorem fixed_cap_invariant_witness :
    1 ≤ 3 ∧
      ((ofAdds 3 [0, 1, 2, 3, 4]).length ≤ 3 ∧
        total_count (ofAdds 3 [0, 1, 2, 3, 4]) = 5 ∧
        (∀ p ∈ ofAdds 3 [0, 1, 2, 3, 4], 0 < p.2) ∧
        total_count (collapseTimes 2 [(0, 2), (5, 1), (9, 4)]) =
          total_count [(0, 2), (5, 1), (9, 4)]) :=
  ⟨by decide, fixed_cap_invariant 3 (by decide) [0, 1, 2, 3, 4] 2 [(0, 2), (5, 1), (9, 4)]⟩

/-- C9: under the DYNAMIC strategy, after `N` adds the number of distinct
occupied buckets (every stored bucket is occupied, third conjunct) is at most
`⌊100·log₁₀(N+1)⌋`. -/
theorem dynamic_cap_invariant (l : List ℤ) :
    ((ofDynAdds l).length : ℤ) ≤ ⌊(100 : ℝ) * Real.logb 10 ((l.length : ℝ) + 1)⌋ ∧
      total_count (ofDynAdds l) = l.length ∧
      ∀ p ∈ ofDynAdds l, 0 < p.2 := by
  refine ⟨?_, ofDynAdds_total_count l, (Wf_ofDynAdds l).2⟩
  have h1 := ofDynAdds_length_le_cap l
  rw [ofDynAdds_total_count l] at h1
  have h2 := dynamicCap_eq_floor l.length
  have h3 : (((l.length : ℝ)) + 1) = (((l.length + 1 : ℕ) : ℝ)) := by push_cast; ring
  rw [h3]
  rw [show ((100 : ℝ) * Real.logb 10 ((l.length + 1 : ℕ) : ℝ)) =
    (100 : ℝ) * Real.logb 10 ((l.length : ℝ) + 1) from by push_cast; ring]
  rw [← h2]
  exact_mod_cast h1

end Buckets

namespace LogarithmicMapping

theorem one_lt_gamma {α : ℝ} (h0 : 0 < α) (h1 : α < 1) : 1 < gamma α := by
  unfold gamma
  rw [lt_div_iff₀ (by linarith)]
  linarith

theorem gamma_pos {α : ℝ} (h0 : 0 < α) (h1 : α < 1) : 0 < gamma α :=
  lt_trans one_pos (one_lt_gamma h0 h1)

theorem gamma_add_one {α : ℝ} (h1 : α < 1) : gamma α + 1 = 2 / (1 - α) := by
  unfold gamma
  have h : (1 : ℝ) - α ≠ 0 := by linarith
  field_simp
  ring

theorem two_div_gamma_add_one {α : ℝ} (h1 : α < 1) : 2 / (gamma α + 1) = 1 - α := by
  rw [gamma_add_one h1, div_div_eq_mul_div]
  have h : (1 : ℝ) - α ≠ 0 := by linarith
  field_simp

theorem value_eq {α : ℝ} (h1 : α < 1) (i : ℤ) :
    compute_value_from_index α i = (1 - α) * gamma α ^ i := by
  unfold compute_value_from_index
  rw [mul_comm (2 : ℝ) (gamma α ^ i), mul_div_assoc, two_div_gamma_add_one h1, mul_comm]

theorem one_sub_mul_gamma {α : ℝ} (h1 : α < 1) : (1 - α) * gamma α = 1 + α := by
  unfold gamma
  have h : (1 : ℝ) - α ≠ 0 := by linarith
  field_simp

theorem value_eq_pred {α : ℝ} (h0 : 0 < α) (h1 : α < 1) (i : ℤ) :
    compute_value_from_index α i = (1 + α) * gamma α ^ (i - 1) := by
  rw [value_eq h1]
  have hγ0 : gamma α ≠ 0 := ne_of_gt (gamma_pos h0 h1)
  have hz : gamma α ^ i = gamma α ^ (i - 1) * gamma α := by
    rw [← zpow_add_one₀ hγ0 (i - 1)]
    norm_num
  rw [hz]
  calc (1 - α) * (gamma α ^ (i - 1) * gamma α)
      = ((1 - α) * gamma α) * gamma α ^ (i - 1) := by ring
    _ = (1 + α) * gamma α ^ (i - 1) := by rw [one_sub_mul_gamma h1]

/-- C2: for the logarithmic mapping with relative accuracy `α ∈ (0,1)` and
every positive value `v`, the reconstruction `value(index(v))` satisfies
`|value(index(v)) − v| / v ≤ α` — in exact arithmetic, so in particular
within the claimed `α + ε_fp` for any `ε_fp ≥ 0`. -/
theorem reconstruction_relative_error (α v : ℝ) (h0 : 0 < α) (h1 : α < 1) (hv : 0 < v) :
    |compute_value_from_index α (compute_bucket_index α v) - v| / v ≤ α := by
  have hγ : 1 < gamma α := one_lt_gamma h0 h1
  have hγ0 : 0 < gamma α := gamma_pos h0 h1
  have hlog : 0 < Real.log (gamma α) := Real.log_pos hγ
  have hub : v ≤ gamma α ^ compute_bucket_index α v := by
    have hle : Real.log v / Real.log (gamma α) ≤ ((compute_bucket_index α v : ℤ) : ℝ) :=
      Int.le_ceil _
    rw [div_le_iff₀ hlog] at hle
    have h3 : Real.log v ≤ Real.log (gamma α ^ compute_bucket_index α v) := by
      rw [Real.log_zpow]
      exact hle
    exact (Real.log_le_log_iff hv (zpow_pos hγ0 _)).mp h3
  have hlt : gamma α ^ (compute_bucket_index α v - 1) < v := by
    have h2 : ((compute_bucket_index α v : ℤ) : ℝ) - 1 < Real.log v / Real.log (gamma α) := by
      have := Int.ceil_lt_add_one (Real.log v / Real.log (gamma α))
      have hdef : ((compute_bucket_index α v : ℤ) : ℝ) =
          ((⌈Real.log v / Real.log (gamma α)⌉ : ℤ) : ℝ) := rfl
      rw [hdef]
      linarith
    rw [lt_div_iff₀ hlog] at h2
    have h4 : Real.log (gamma α ^ (compute_bucket_index α v - 1)) < Real.log v := by
      rw [Real.log_zpow]
      push_cast
      linarith
    exact (Real.log_lt_log_iff (zpow_pos hγ0 _) hv).mp h4
  have hineq1 : compute_value_from_index α (compute_bucket_index α v) - v ≤ α * v := by
    rw [value_eq_pred h0 h1]
    have h5 : (1 + α) * gamma α ^ (compute_bucket_index α v - 1) < (1 + α) * v :=
      mul_lt_mul_of_pos_left hlt (by linarith)
    linarith
  have hineq2 : v - compute_value_from_index α (compute_bucket_index α v) ≤ α * v := by
    rw [value_eq h1]
    have h6 : (1 - α) * v ≤ (1 - α) * gamma α ^ compute_bucket_index α v :=
      mul_le_mul_of_nonneg_left hub (by linarith)
    linarith
  have habs : |compute_value_from_index α (compute_bucket_index α v) - v| ≤ α * v :=
    abs_le.mpr ⟨by linarith, hineq1⟩
  rw [div_le_iff₀ hv]
  exact habs

/-- Witness for C2: the logarithmic mapping at `α = 1/2` and `v = 2`. -/
theorem reconstruction_relative_error_witness :
    (0 : ℝ) < 1 / 2 ∧ (1 / 2 : ℝ) < 1 ∧ (0 : ℝ) < 2 ∧
      |compute_value_from_index (1 / 2) (compute_bucket_index (1 / 2) 2) - 2| / 2 ≤ 1 / 2 :=
  ⟨by norm_num, by norm_num, by norm_num,
    reconstruction_relative_error (1 / 2) 2 (by norm_num) (by norm_num) (by norm_num)⟩

/-- C7: round-trip stability of the logarithmic mapping — for every
`α ∈ (0,1)` and every bucket index `i`, `index(value(i)) = i`. -/
theorem round_trip (α : ℝ) (h0 : 0 < α) (h1 : α < 1) (i : ℤ) :
    compute_bucket_index α (compute_value_from_index α i) = i := by
  have hγ : 1 < gamma α := one_lt_gamma h0 h1
  have hγ0 : 0 < gamma α := gamma_pos h0 h1
  have hlog : 0 < Real.log (gamma α) := Real.log_pos hγ
  have h1α : (0 : ℝ) < 1 - α := by linarith
  rw [value_eq h1]
  unfold compute_bucket_index
  have hlogv : Real.log ((1 - α) * gamma α ^ i) =
      Real.log (1 - α) + (i : ℝ) * Real.log (gamma α) := by
    rw [Real.log_mul (ne_of_gt h1α) (ne_of_gt (zpow_pos hγ0 i)), Real.log_zpow]
  rw [hlogv]
  have hsplit : (Real.log (1 - α) + (i : ℝ) * Real.log (gamma α)) / Real.log (gamma α) =
      Real.log (1 - α) / Real.log (gamma α) + (i : ℝ) := by
    field_simp
  rw [hsplit, Int.ceil_add_int]
  have htneg : Real.log (1 - α) / Real.log (gamma α) ≤ 0 :=
    div_nonpos_of_nonpos_of_nonneg (le_of_lt (Real.log_neg h1α (by linarith))) (le_of_lt hlog)
  have htgt : (-1 : ℝ) < Real.log (1 - α) / Real.log (gamma α) := by
    have hinv : Real.log ((gamma α)⁻¹) < Real.log (1 - α) := by
      apply Real.log_lt_log (by positivity)
      rw [show (gamma α)⁻¹ = (1 - α) / (1 + α) from by unfold gamma; rw [inv_div]]
      rw [div_lt_iff₀ (by linarith)]
      nlinarith
    rw [Real.log_inv] at hinv
    rw [lt_div_iff₀ hlog]
    linarith
  have hc : ⌈Real.log (1 - α) / Real.log (gamma α)⌉ = 0 :=
    Int.ceil_eq_zero_iff.mpr ⟨htgt, htneg⟩
  rw [hc, zero_add]

/-- Witness for C7: the logarithmic mapping at `α = 1/2` and bucket `i = 3`. -/
theorem round_trip_witness :
    (0 : ℝ) < 1 / 2 ∧ (1 / 2 : ℝ) < 1 ∧
      compute_bucket_index (1 / 2) (compute_value_from_index (1 / 2) 3) = 3 :=
  ⟨by norm_num, by norm_num, round_trip (1 / 2) (by norm_num) (by norm_num) 3⟩

end LogarithmicMapping

namespace Buckets

theorem total_count_mergeInto :
    ∀ (t s : Buckets), total_count (mergeInto s t) = total_count s + total_count t := by
  intro t
  induction t with
  | nil => intro s; simp [mergeInto, total_count]
  | cons q t' ih =>
    obtain ⟨j, c⟩ := q
    intro s
    have h0 : mergeInto s ((j, c) :: t') = mergeInto (addN j c s) t' := rfl
    rw [h0, ih (addN j c s), total_count_addN, total_count_cons]
    omega

end Buckets

namespace DDSketch

theorem insertVal_count (idx : ℚ → ℤ) (v : ℚ) (s : DDSketch) :
    (insertVal idx v s).count = s.count + 1 := by
  unfold insertVal
  split_ifs <;> rfl

theorem insertVal_cont_neg (idx : ℚ → ℤ) (v : ℚ) (s : DDSketch) :
    (insertVal idx v s).cont_neg = s.cont_neg := by
  unfold insertVal
  split_ifs <;> rfl

theorem insertVal_relative_accuracy (idx : ℚ → ℤ) (v : ℚ) (s : DDSketch) :
    (insertVal idx v s).relative_accuracy = s.relative_accuracy := by
  unfold insertVal
  split_ifs <;> rfl

theorem good_init (α : ℚ) (b : Bool) :
    invariantCount (init α b) ∧ WfStores (init α b) := by
  refine ⟨?_, Buckets.Wf_nil, Buckets.Wf_nil⟩
  simp [invariantCount, init, Buckets.total_count]

theorem good_insertVal (idx : ℚ → ℤ) (v : ℚ) {s : DDSketch}
    (h : invariantCount s ∧ WfStores s) :
    invariantCount (insertVal idx v s) ∧ WfStores (insertVal idx v s) := by
  obtain ⟨hc, hwp, hwn⟩ := h
  unfold invariantCount WfStores insertVal at *
  split_ifs with h1 h2
  · exact ⟨by simp; omega, by simp [hwp, hwn]⟩
  · refine ⟨?_, ?_, ?_⟩
    · simp [Buckets.total_count_add]
      omega
    · simp
      exact Buckets.Wf_add _ hwp
    · simp [hwn]
  · refine ⟨?_, ?_, ?_⟩
    · simp [Buckets.total_count_add]
      omega
    · simp [hwp]
    · simp
      exact Buckets.Wf_add _ hwn

theorem good_deleteVal (idx : ℚ → ℤ) (v : ℚ) {s : DDSketch}
    (h : invariantCount s ∧ WfStores s) :
    invariantCount (deleteVal idx v s) ∧ WfStores (deleteVal idx v s) := by
  obtain ⟨hc, hwp, hwn⟩ := h
  unfold invariantCount at hc
  unfold deleteVal
  split_ifs with h1 h2
  · refine ⟨?_, hwp, hwn⟩
    unfold invariantCount
    simp
    omega
  · exact ⟨hc, hwp, hwn⟩
  · rcases hrem : Buckets.removeOne (idx v) s.posStore with ⟨st, b⟩
    have hwst : Buckets.Wf st := by
      have h' := Buckets.Wf_removeOne (idx v) hwp
      rw [hrem] at h'
      exact h'
    cases b with
    | true =>
      have htot := Buckets.removeOne_total_count (idx v) hwp.2 (by rw [hrem])
      rw [hrem] at htot
      simp only [] at htot
      refine ⟨?_, hwst, hwn⟩
      unfold invariantCount
      simp
      omega
    | false => exact ⟨hc, hwp, hwn⟩
  · rcases hrem : Buckets.removeOne (idx (-v)) s.negStore with ⟨st, b⟩
    have hwst : Buckets.Wf st := by
      have h' := Buckets.Wf_removeOne (idx (-v)) hwn
      rw [hrem] at h'
      exact h'
    cases b with
    | true =>
      have htot := Buckets.removeOne_total_count (idx (-v)) hwn.2 (by rw [hrem])
      rw [hrem] at htot
      simp only [] at htot
      refine ⟨?_, hwp, hwst⟩
      unfold invariantCount
      simp
      omega
    | false => exact ⟨hc, hwp, hwn⟩

theorem good_mergeState {s t : DDSketch}
    (hs : invariantCount s ∧ WfStores s) (ht : invariantCount t ∧ WfStores t) :
    invariantCount (mergeState s t) ∧ WfStores (mergeState s t) := by
  obtain ⟨hcs, hwps, hwns⟩ := hs
  obtain ⟨hct, hwpt, hwnt⟩ := ht
  unfold invariantCount at hcs hct
  refine ⟨?_, ?_, ?_⟩
  · unfold invariantCount mergeState
    simp [Buckets.total_count_mergeInto]
    omega
  · exact Buckets.Wf_mergeInto hwps hwpt
  · exact Buckets.Wf_mergeInto hwns hwnt

theorem reachable_inv (idx : ℚ → ℤ) :
    ∀ {s : DDSketch}, Reachable idx s → invariantCount s ∧ WfStores s := by
  intro s h
  induction h with
  | new α b s hnew =>
    unfold new at hnew
    split_ifs at hnew
    injection hnew with h2
    subst h2
    exact good_init α b
  | insert v hr hok ih =>
    unfold insert at hok
    split_ifs at hok
    injection hok with h2
    subst h2
    exact good_insertVal _ v ih
  | delete v hr hok ih =>
    unfold delete at hok
    split_ifs at hok
    injection hok with h2
    subst h2
    exact good_deleteVal _ v ih
  | merge hr ht hok ihs iht =>
    unfold merge at hok
    split_ifs at hok
    injection hok with h2
    subst h2
    exact good_mergeState ihs iht

theorem fromStream_count (idx : ℚ → ℤ) (α : ℚ) (xs : List ℚ) :
    (fromStream idx α xs).count = xs.length := by
  suffices h : ∀ s0 : DDSketch,
      (xs.foldl (fun s v => insertVal idx v s) s0).count = s0.count + xs.length by
    simpa [fromStream, init] using h (init α true)
  induction xs with
  | nil => intro s0; simp
  | cons v vs ih =>
    intro s0
    simp only [List.foldl_cons, List.length_cons]
    rw [ih (insertVal idx v s0), insertVal_count]
    omega

/-- C4: for every reachable DDSketch state (any sequence of successful
insert, delete and merge operations from a fresh sketch) the invariant
`count = zero_count + Σ positive_store + Σ negative_store` holds, and after
inserting a stream `xs` of accepted samples, `count = |xs|`. -/
theorem count_invariant (idx : ℚ → ℤ) (s : DDSketch) (hr : Reachable idx s)
    (α : ℚ) (xs : List ℚ) :
    s.count = s.zero_count + Buckets.total_count s.posStore +
        Buckets.total_count s.negStore ∧
      (fromStream idx α xs).count = xs.length :=
  ⟨(reachable_inv idx hr).1, fromStream_count idx α xs⟩

end DDSketch

namespace DDSketch

theorem fromStream_cont_neg (idx : ℚ → ℤ) (α : ℚ) (xs : List ℚ) :
    (fromStream idx α xs).cont_neg = true := by
  suffices h : ∀ s0 : DDSketch,
      (xs.foldl (fun s v => insertVal idx v s) s0).cont_neg = s0.cont_neg by
    simpa [fromStream, init] using h (init α true)
  induction xs with
  | nil => intro s0; simp
  | cons v vs ih =>
    intro s0
    simp only [List.foldl_cons]
    rw [ih (insertVal idx v s0), insertVal_cont_neg]

theorem fromStream_append (idx : ℚ → ℤ) (α : ℚ) (xs : List ℚ) (v : ℚ) :
    fromStream idx α (xs ++ [v]) = insertVal idx v (fromStream idx α xs) := by
  unfold fromStream
  rw [List.foldl_append]
  rfl

theorem reachable_fromStream (idx : ℚ → ℤ) (α : ℚ) (hα : 0 < α ∧ α < 1) (xs : List ℚ) :
    Reachable idx (fromStream idx α xs) := by
  induction xs using List.reverseRecOn with
  | nil =>
    refine Reachable.new α true (init α true) ?_
    unfold new
    rw [if_pos hα]
  | append_singleton vs v ih =>
    rw [fromStream_append]
    refine Reachable.insert v ih ?_
    unfold insert
    rw [if_neg]
    intro hcond
    rw [fromStream_cont_neg] at hcond
    exact absurd hcond.2 (by simp)

/-- Witness for C4: the invariant evaluated on the sketch built from the
stream `[1, -2, 0]`, and the count of the sketch built from `[1, 2, 3]`. -/
theorem count_invariant_witness :
    (fromStream (fun _ => (0 : ℤ)) (1 / 100) [1, -2, 0]).count =
        (fromStream (fun _ => (0 : ℤ)) (1 / 100) [1, -2, 0]).zero_count +
          Buckets.total_count (fromStream (fun _ => (0 : ℤ)) (1 / 100) [1, -2, 0]).posStore +
          Buckets.total_count (fromStream (fun _ => (0 : ℤ)) (1 / 100) [1, -2, 0]).negStore ∧
      (fromStream (fun _ => (0 : ℤ)) (1 / 100) [1, 2, 3]).count = [(1 : ℚ), 2, 3].length :=
  count_invariant (fun _ => 0) _
    (reachable_fromStream _ (1 / 100) ⟨by norm_num, by norm_num⟩ [1, -2, 0])
    (1 / 100) [1, 2, 3]

/-- C10: a DDSketch constructed without an explicit `cont_neg` argument has
`cont_neg = true`, and therefore accepts negative inserts without error. -/
theorem default_cont_neg (idx : ℚ → ℤ) (α : ℚ) (s : DDSketch)
    (h : newDefault α = .ok s) :
    s.cont_neg = true ∧ ∀ v : ℚ, v < 0 → ∃ s', insert idx v s = .ok s' := by
  unfold newDefault new at h
  split_ifs at h
  injection h with h2
  subst h2
  refine ⟨rfl, ?_⟩
  intro v hv
  refine ⟨insertVal idx v (init α true), ?_⟩
  unfold insert
  rw [if_neg]
  intro hcond
  exact absurd hcond.2 (by simp [init])

/-- Witness for C10: the default construction at `α = 1/100`. -/
theorem default_cont_neg_witness :
    newDefault (1 / 100 : ℚ) = .ok (init (1 / 100) true) ∧
      ((init (1 / 100 : ℚ) true).cont_neg = true ∧
        ∀ v : ℚ, v < 0 → ∃ s', insert (fun _ => (0 : ℤ)) v (init (1 / 100) true) = .ok s') := by
  have hnew : newDefault (1 / 100 : ℚ) = .ok (init (1 / 100) true) := by
    unfold newDefault new
    rw [if_pos (by norm_num)]
  exact ⟨hnew, default_cont_neg (fun _ => 0) (1 / 100) _ hnew⟩

end DDSketch

theorem findCross_total :
    ∀ (L : List (ℚ × ℕ)) (rank : ℤ), 1 ≤ rank → rank ≤ (runsTotal L : ℤ) →
      ∃ v, findCross rank L = some v := by
  intro L
  induction L with
  | nil =>
    intro rank h1 h2
    simp [runsTotal] at h2
    omega
  | cons p rest ih =>
    obtain ⟨v, c⟩ := p
    intro rank h1 h2
    by_cases hc : rank ≤ (c : ℤ)
    · exact ⟨v, by simp [findCross, hc]⟩
    · have h3 : runsTotal ((v, c) :: rest) = c + runsTotal rest := by
        simp [runsTotal]
      obtain ⟨w, hw⟩ := ih (rank - c) (by omega) (by omega)
      exact ⟨w, by simp [findCross, hc, hw]⟩

theorem findCross_some_rank_le :
    ∀ {L : List (ℚ × ℕ)} {rank : ℤ} {v : ℚ},
      findCross rank L = some v → rank ≤ (runsTotal L : ℤ) := by
  intro L
  induction L with
  | nil =>
    intro rank v h
    simp [findCross] at h
  | cons p rest ih =>
    obtain ⟨w, c⟩ := p
    intro rank v h
    have h3 : runsTotal ((w, c) :: rest) = c + runsTotal rest := by
      simp [runsTotal]
    by_cases hc : rank ≤ (c : ℤ)
    · omega
    · simp only [findCross, if_neg hc] at h
      have := ih h
      omega

theorem rankOf_pos (q : ℚ) (n : ℕ) : 1 ≤ rankOf q n := le_max_left 1 _

theorem rankOf_le {q : ℚ} (hq1 : q ≤ 1) {n : ℕ} (hn : 1 ≤ n) : rankOf q n ≤ (n : ℤ) := by
  unfold rankOf
  apply max_le
  · exact_mod_cast hn
  · apply Int.ceil_le.mpr
    push_cast
    exact mul_le_of_le_one_left (by positivity) hq1

namespace DDSketch

theorem runsTotal_profile (val : ℤ → ℚ) (s : DDSketch) :
    runsTotal (profile val s) =
      Buckets.total_count s.negStore + s.zero_count + Buckets.total_count s.posStore := by
  unfold profile runsTotal Buckets.total_count
  rw [List.map_append, List.sum_append, List.map_cons, List.sum_cons]
  rw [List.map_map, List.map_map]
  have h1 : (Prod.snd ∘ fun p : ℤ × ℕ => ((-(val p.1) : ℚ), p.2)) = Prod.snd := rfl
  have h2 : (Prod.snd ∘ fun p : ℤ × ℕ => ((val p.1 : ℚ), p.2)) = Prod.snd := rfl
  rw [h1, h2, List.map_reverse, List.sum_reverse]
  omega

/-- C5: for every reachable DDSketch, `quantile(q)` returns a value exactly
when `0 ≤ q ≤ 1` and the sketch is non-empty; otherwise it raises the
corresponding error. -/
theorem quantile_error_conditions (idx : ℚ → ℤ) (val : ℤ → ℚ) (s : DDSketch)
    (hr : Reachable idx s) (q : ℚ) :
    (∃ r, quantile val q s = .ok r) ↔ (0 ≤ q ∧ q ≤ 1 ∧ s.count ≠ 0) := by
  unfold quantile
  constructor
  · rintro ⟨r, hok⟩
    split_ifs at hok with hq hc
    have hq2 := not_or.mp hq
    exact ⟨not_lt.mp hq2.1, not_lt.mp hq2.2, hc⟩
  · rintro ⟨hq0, hq1, hc⟩
    rw [if_neg (by push_neg; exact ⟨hq0, hq1⟩), if_neg hc]
    have hinv := (reachable_inv idx hr).1
    unfold invariantCount at hinv
    have htot : (runsTotal (profile val s) : ℤ) = (s.count : ℤ) := by
      rw [runsTotal_profile]
      push_cast
      omega
    obtain ⟨v, hv⟩ := findCross_total (profile val s) (rankOf q s.count)
      (rankOf_pos q s.count) (by rw [htot]; exact rankOf_le hq1 (by omega))
    rw [hv]
    exact ⟨v, rfl⟩

/-- Witness for C5: the sketch built from `[1, 2]` queried at `q = 1/2`. -/
theorem quantile_error_conditions_witness :
    (∃ r, quantile (fun _ => (1 : ℚ)) (1 / 2)
        (fromStream (fun _ => (0 : ℤ)) (1 / 2) [1, 2]) = .ok r) ↔
      (0 ≤ (1 / 2 : ℚ) ∧ (1 / 2 : ℚ) ≤ 1 ∧
        (fromStream (fun _ => (0 : ℤ)) (1 / 2) [1, 2]).count ≠ 0) :=
  quantile_error_conditions _ _ _
    (reachable_fromStream _ _ ⟨by norm_num, by norm_num⟩ _) (1 / 2)

end DDSketch

theorem getD_replicate_lt {α : Type} (d a : α) {c k : ℕ} (h : k < c) :
    (List.replicate c a).getD k d = a := by
  rw [List.getD_eq_getElem _ _ (by simpa using h), List.getElem_replicate]

theorem findCross_eq_getD :
    ∀ (L : List (ℚ × ℕ)) (rank : ℤ), 1 ≤ rank → rank ≤ (runsTotal L : ℤ) →
      findCross rank L = some ((expandRuns L).getD (rank - 1).toNat 0) := by
  intro L
  induction L with
  | nil =>
    intro rank h1 h2
    simp [runsTotal] at h2
    omega
  | cons p rest ih =>
    obtain ⟨v, c⟩ := p
    intro rank h1 h2
    by_cases hc : rank ≤ (c : ℤ)
    · simp only [findCross, if_pos hc]
      have hk : (rank - 1).toNat < c := by omega
      rw [Buckets.expandRuns_cons]
      rw [List.getD_append _ _ _ _ (by simpa using hk), getD_replicate_lt _ _ hk]
    · simp only [findCross, if_neg hc]
      have h3 : runsTotal ((v, c) :: rest) = c + runsTotal rest := by
        simp [runsTotal]
      rw [ih (rank - c) (by omega) (by omega)]
      rw [Buckets.expandRuns_cons]
      rw [List.getD_append_right _ _ _ _ (by simp; omega)]
      congr 1
      simp only [List.length_replicate]
      congr 1
      omega

theorem pairwise_le_getD {l : List ℚ} (h : l.Pairwise (· ≤ ·)) {i j : ℕ}
    (hij : i ≤ j) (hj : j < l.length) : l.getD i 0 ≤ l.getD j 0 := by
  rcases Nat.lt_or_ge i j with hlt | hge
  · rw [List.getD_eq_getElem _ _ (lt_of_le_of_lt hij hj), List.getD_eq_getElem _ _ hj]
    exact List.pairwise_iff_getElem.mp h i j (lt_of_le_of_lt hij hj) hj hlt
  · have hij2 : i = j := le_antisymm hij hge
    rw [hij2]

namespace DDSketch

theorem profile_runs_sorted (val : ℤ → ℚ) {s : DDSketch} (hwf : WfStores s)
    (hmono : Monotone val) (hpos : ∀ i, 0 < val i) :
    (profile val s).Pairwise (fun p q => p.1 ≤ q.1) := by
  obtain ⟨hwp, hwn⟩ := hwf
  unfold profile
  rw [List.pairwise_append]
  refine ⟨?_, ?_, ?_⟩
  · rw [List.pairwise_map, List.pairwise_reverse]
    apply List.Pairwise.imp ?_ hwn.1
    intro a b hab
    simp only []
    have h := hmono (le_of_lt hab)
    linarith
  · rw [List.pairwise_cons]
    constructor
    · intro p hp
      rw [List.mem_map] at hp
      obtain ⟨q2, _, hq2⟩ := hp
      rw [← hq2]
      exact le_of_lt (hpos q2.1)
    · rw [List.pairwise_map]
      apply List.Pairwise.imp ?_ hwp.1
      intro a b hab
      exact hmono (le_of_lt hab)
  · intro x hx y hy
    rw [List.mem_map] at hx
    obtain ⟨p2, _, hp2⟩ := hx
    have hx1 : x.1 ≤ 0 := by
      rw [← hp2]
      simp only []
      have := hpos p2.1
      linarith
    rcases List.mem_cons.mp hy with h | h
    · rw [h]
      exact hx1
    · rw [List.mem_map] at h
      obtain ⟨q2, _, hq2⟩ := h
      have hy1 : 0 ≤ y.1 := by
        rw [← hq2]
        exact le_of_lt (hpos q2.1)
      linarith

/-- C6: on every reachable non-empty DDSketch, with any mapping whose
reconstruction `val` is monotone and positive (as the spec's mappings are),
`q₁ < q₂` implies `quantile(q₁) ≤ quantile(q₂)`. -/
theorem quantile_monotone (idx : ℚ → ℤ) (val : ℤ → ℚ) (s : DDSketch)
    (hr : Reachable idx s) (hmono : Monotone val) (hpos : ∀ i, 0 < val i)
    (q₁ q₂ a b : ℚ) (h1 : quantile val q₁ s = .ok a)
    (h2 : quantile val q₂ s = .ok b) (hq : q₁ < q₂) : a ≤ b := by
  unfold quantile at h1 h2
  split_ifs at h1 with hqa hca
  split_ifs at h2 with hqb hcb2
  rcases hfc1 : findCross (rankOf q₁ s.count) (profile val s) with _ | v1
  · rw [hfc1] at h1
    simp at h1
  rcases hfc2 : findCross (rankOf q₂ s.count) (profile val s) with _ | v2
  · rw [hfc2] at h2
    simp at h2
  rw [hfc1] at h1
  rw [hfc2] at h2
  simp only [Except.ok.injEq] at h1 h2
  have hW := reachable_inv idx hr
  have hsor := Buckets.sorted_expandRuns (profile_runs_sorted val hW.2 hmono hpos)
  have hr1 : 1 ≤ rankOf q₁ s.count := rankOf_pos _ _
  have hr2 : 1 ≤ rankOf q₂ s.count := rankOf_pos _ _
  have hr1le : rankOf q₁ s.count ≤ (runsTotal (profile val s) : ℤ) :=
    findCross_some_rank_le hfc1
  have hr2le : rankOf q₂ s.count ≤ (runsTotal (profile val s) : ℤ) :=
    findCross_some_rank_le hfc2
  have e1 : v1 = (expandRuns (profile val s)).getD (rankOf q₁ s.count - 1).toNat 0 := by
    have h := findCross_eq_getD (profile val s) _ hr1 hr1le
    rw [hfc1] at h
    injection h
  have e2 : v2 = (expandRuns (profile val s)).getD (rankOf q₂ s.count - 1).toNat 0 := by
    have h := findCross_eq_getD (profile val s) _ hr2 hr2le
    rw [hfc2] at h
    injection h
  have hrr : rankOf q₁ s.count ≤ rankOf q₂ s.count := by
    unfold rankOf
    apply max_le_max (le_refl 1)
    apply Int.ceil_le_ceil
    exact mul_le_mul_of_nonneg_right (le_of_lt hq) (by positivity)
  have hlen : (expandRuns (profile val s)).length = runsTotal (profile val s) :=
    Buckets.length_expandRuns _
  rw [← h1, ← h2, e1, e2]
  apply pairwise_le_getD hsor (by omega)
  rw [hlen]
  omega

/-- Witness for C6: the sketch built from `[1, 2]` with the constant mapping,
queried at `q₁ = 1/4 < q₂ = 3/4`. -/
theorem quantile_monotone_witness :
    quantile (fun _ => (1 : ℚ)) (1 / 4) (fromStream (fun _ => (0 : ℤ)) (1 / 2) [1, 2]) =
        .ok 1 ∧
      quantile (fun _ => (1 : ℚ)) (3 / 4) (fromStream (fun _ => (0 : ℤ)) (1 / 2) [1, 2]) =
        .ok 1 ∧
      (1 / 4 : ℚ) < 3 / 4 ∧ (1 : ℚ) ≤ 1 := by
  have hs : fromStream (fun _ => (0 : ℤ)) (1 / 2) [1, 2] =
      ⟨1 / 2, true, [], 0, [((0 : ℤ), 2)], 2⟩ := by
    unfold fromStream init insertVal
    norm_num [Buckets.add, Buckets.addN]
  have hq1 : quantile (fun _ => (1 : ℚ)) (1 / 4)
      (fromStream (fun _ => (0 : ℤ)) (1 / 2) [1, 2]) = .ok 1 := by
    rw [hs]
    unfold quantile
    have hc : (⌈(1 / 2 : ℚ)⌉ : ℤ) = 1 := by
      rw [Int.ceil_eq_iff]
      constructor <;> norm_num
    norm_num [profile, rankOf, findCross, hc]
  have hq2 : quantile (fun _ => (1 : ℚ)) (3 / 4)
      (fromStream (fun _ => (0 : ℤ)) (1 / 2) [1, 2]) = .ok 1 := by
    rw [hs]
    unfold quantile
    have hc : (⌈(3 / 2 : ℚ)⌉ : ℤ) = 2 := by
      rw [Int.ceil_eq_iff]
      constructor <;> norm_num
    norm_num [profile, rankOf, findCross, hc]
  refine ⟨hq1, hq2, by norm_num, ?_⟩
  exact quantile_monotone (fun _ => 0) (fun _ => 1) _
    (reachable_fromStream _ _ ⟨by norm_num, by norm_num⟩ _)
    monotone_const (fun _ => one_pos) (1 / 4) (3 / 4) 1 1 hq1 hq2 (by norm_num)

end DDSketch

theorem negIndices_append (idx : ℚ → ℤ) (xs ys : List ℚ) :
    negIndices idx (xs ++ ys) = negIndices idx xs ++ negIndices idx ys := by
  simp [negIndices, List.filter_append]

theorem posIndices_append (idx : ℚ → ℤ) (xs ys : List ℚ) :
    posIndices idx (xs ++ ys) = posIndices idx xs ++ posIndices idx ys := by
  simp [posIndices, List.filter_append]

theorem zeroCountOf_append (xs ys : List ℚ) :
    zeroCountOf (xs ++ ys) = zeroCountOf xs + zeroCountOf ys := by
  simp [zeroCountOf, List.filter_append]

namespace DDSketch

theorem fromStream_eq (idx : ℚ → ℤ) (α : ℚ) (xs : List ℚ) :
    fromStream idx α xs =
      ⟨α, true, Buckets.ofList (negIndices idx xs), zeroCountOf xs,
        Buckets.ofList (posIndices idx xs), xs.length⟩ := by
  suffices h : ∀ s0 : DDSketch,
      xs.foldl (fun s v => insertVal idx v s) s0 =
        ⟨s0.relative_accuracy, s0.cont_neg,
          (negIndices idx xs).foldl (fun a i => Buckets.add i a) s0.negStore,
          s0.zero_count + zeroCountOf xs,
          (posIndices idx xs).foldl (fun a i => Buckets.add i a) s0.posStore,
          s0.count + xs.length⟩ by
    have h2 := h (init α true)
    simpa [fromStream, init, Buckets.ofList] using h2
  induction xs with
  | nil =>
    intro s0
    simp [negIndices, posIndices, zeroCountOf]
  | cons v vs ih =>
    intro s0
    simp only [List.foldl_cons]
    rw [ih (insertVal idx v s0)]
    unfold insertVal
    by_cases h1 : v = 0
    · subst h1
      rw [if_pos rfl]
      have e1 : negIndices idx ((0 : ℚ) :: vs) = negIndices idx vs := by
        unfold negIndices
        rw [List.filter_cons]
        norm_num
      have e2 : posIndices idx ((0 : ℚ) :: vs) = posIndices idx vs := by
        unfold posIndices
        rw [List.filter_cons]
        norm_num
      have e3 : zeroCountOf ((0 : ℚ) :: vs) = 1 + zeroCountOf vs := by
        unfold zeroCountOf
        rw [List.filter_cons]
        norm_num
        omega
      rw [e1, e2, e3]
      simp only [mk.injEq, List.foldl_cons, List.length_cons, eq_self_iff_true, true_and,
        and_true]
      omega
    · by_cases h2 : 0 < v
      · rw [if_neg h1, if_pos h2]
        have e1 : negIndices idx (v :: vs) = negIndices idx vs := by
          unfold negIndices
          rw [List.filter_cons]
          have : ¬(v < 0) := by linarith
          simp [this]
        have e2 : posIndices idx (v :: vs) = idx v :: posIndices idx vs := by
          unfold posIndices
          rw [List.filter_cons]
          simp [h2]
        have e3 : zeroCountOf (v :: vs) = zeroCountOf vs := by
          unfold zeroCountOf
          rw [List.filter_cons]
          simp [h1]
        rw [e1, e2, e3]
        simp only [mk.injEq, List.foldl_cons, List.length_cons, eq_self_iff_true, true_and,
          and_true]
        omega
      · rw [if_neg h1, if_neg h2]
        have hv : v < 0 := by
          rcases lt_trichotomy v 0 with h | h | h
          · exact h
          · exact absurd h h1
          · exact absurd h h2
        have e1 : negIndices idx (v :: vs) = idx (-v) :: negIndices idx vs := by
          unfold negIndices
          rw [List.filter_cons]
          simp [hv]
        have e2 : posIndices idx (v :: vs) = posIndices idx vs := by
          unfold posIndices
          rw [List.filter_cons]
          simp [h2]
        have e3 : zeroCountOf (v :: vs) = zeroCountOf vs := by
          unfold zeroCountOf
          rw [List.filter_cons]
          simp [h1]
        rw [e1, e2, e3]
        simp only [mk.injEq, List.foldl_cons, List.length_cons, eq_self_iff_true, true_and,
          and_true]
        omega

theorem mergeState_fromStream (idx : ℚ → ℤ) (α : ℚ) (xs ys : List ℚ) :
    mergeState (fromStream idx α xs) (fromStream idx α ys) = fromStream idx α (xs ++ ys) := by
  rw [fromStream_eq idx α xs, fromStream_eq idx α ys, fromStream_eq idx α (xs ++ ys)]
  unfold mergeState
  simp only [mk.injEq, List.length_append, eq_self_iff_true, true_and, and_true]
  refine ⟨?_, ?_, ?_⟩
  · rw [negIndices_append]
    exact Buckets.mergeInto_ofList _ _
  · rw [zeroCountOf_append]
  · rw [posIndices_append]
    exact Buckets.mergeInto_ofList _ _

/-- C3: building one sketch from the whole stream `xs ++ ys` agrees with
building two sketches with identical parameters on `xs` and `ys` and merging
the second into the first — the merge succeeds and the results agree in
`count` and in the value of `quantile(q)` for every `q`. -/
theorem merge_split_equivalence (idx : ℚ → ℤ) (val : ℤ → ℚ) (α : ℚ) (xs ys : List ℚ) :
    ∃ m, merge (fromStream idx α xs) (fromStream idx α ys) = .ok m ∧
      m.count = (fromStream idx α (xs ++ ys)).count ∧
      ∀ q : ℚ, quantile val q m = quantile val q (fromStream idx α (xs ++ ys)) := by
  refine ⟨fromStream idx α (xs ++ ys), ?_, rfl, fun q => rfl⟩
  unfold merge
  have hcond : (fromStream idx α xs).relative_accuracy =
        (fromStream idx α ys).relative_accuracy ∧
      (fromStream idx α xs).cont_neg = (fromStream idx α ys).cont_neg := by
    rw [fromStream_eq idx α xs, fromStream_eq idx α ys]
    exact ⟨rfl, rfl⟩
  rw [if_pos hcond, mergeState_fromStream]

end DDSketch

theorem estimateOf_monotone (idx : ℚ → ℤ) (val : ℤ → ℚ)
    (hidx : ∀ u w : ℚ, 0 < u → u ≤ w → idx u ≤ idx w)
    (hval : Monotone val) (hpos : ∀ i, 0 < val i) :
    Monotone (estimateOf idx val) := by
  intro u w huw
  unfold estimateOf
  rcases lt_trichotomy u 0 with hu | hu | hu
  · rcases lt_trichotomy w 0 with hw | hw | hw
    · rw [if_neg (by linarith : ¬u = 0), if_neg (by linarith : ¬0 < u),
        if_neg (by linarith : ¬w = 0), if_neg (by linarith : ¬0 < w)]
      have h := hval (hidx (-w) (-u) (by linarith) (by linarith))
      linarith
    · rw [if_neg (by linarith : ¬u = 0), if_neg (by linarith : ¬0 < u), if_pos hw]
      have h := hpos (idx (-u))
      linarith
    · rw [if_neg (by linarith : ¬u = 0), if_neg (by linarith : ¬0 < u),
        if_neg (by linarith : ¬w = 0), if_pos hw]
      have ha := hpos (idx (-u))
      have hb := hpos (idx w)
      linarith
  · subst hu
    rw [if_pos rfl]
    rcases lt_trichotomy w 0 with hw | hw | hw
    · exact absurd hw (not_lt.mpr huw)
    · rw [if_pos hw]
    · rw [if_neg (by linarith : ¬w = 0), if_pos hw]
      exact le_of_lt (hpos (idx w))
  · have hw : 0 < w := lt_of_lt_of_le hu huw
    rw [if_neg (by linarith : ¬u = 0), if_pos hu, if_neg (by linarith : ¬w = 0), if_pos hw]
    exact hval (hidx u w hu huw)

theorem filter_sign_partition (xs : List ℚ) :
    ((xs.filter (fun v => decide (v < 0))) ++
      ((xs.filter (fun v => decide (v = 0))) ++
        (xs.filter (fun v => decide (0 < v))))).Perm xs := by
  induction xs with
  | nil =>
    simp only [List.filter_nil, List.append_nil]
    exact List.Perm.nil
  | cons a l ih =>
    rcases lt_trichotomy a 0 with h | h | h
    · have e1 : decide (a < 0) = true := decide_eq_true h
      have e2 : decide (a = 0) = false := decide_eq_false (by linarith)
      have e3 : decide (0 < a) = false := decide_eq_false (by linarith)
      simp only [List.filter_cons, e1, e2, e3, if_true, if_false, Bool.false_eq_true,
        List.cons_append]
      exact ih.cons a
    · subst h
      have e1 : decide ((0 : ℚ) < 0) = false := decide_eq_false (by norm_num)
      have e2 : decide ((0 : ℚ) = 0) = true := decide_eq_true rfl
      simp only [List.filter_cons, e1, e2, if_true, if_false, Bool.false_eq_true,
        List.cons_append]
      exact List.perm_middle.trans (ih.cons 0)
    · have e1 : decide (a < 0) = false := decide_eq_false (by linarith)
      have e2 : decide (a = 0) = false := decide_eq_false (by linarith)
      have e3 : decide (0 < a) = true := decide_eq_true h
      simp only [List.filter_cons, e1, e2, e3, if_true, if_false, Bool.false_eq_true]
      have step1 : ((l.filter (fun v => decide (v = 0))) ++
          a :: (l.filter (fun v => decide (0 < v)))).Perm
          (a :: ((l.filter (fun v => decide (v = 0))) ++
            (l.filter (fun v => decide (0 < v))))) := List.perm_middle
      refine ((step1.append_left _).trans ?_)
      exact List.perm_middle.trans (ih.cons a)

theorem getD_map_of_lt {f : ℚ → ℚ} {l : List ℚ} {k : ℕ} (h : k < l.length) (d : ℚ) :
    (l.map f).getD k d = f (l.getD k d) := by
  rw [List.getD_eq_getElem _ _ (by simpa using h), List.getD_eq_getElem _ _ h,
    List.getElem_map]

namespace DDSketch

theorem WfStores_fromStream (idx : ℚ → ℤ) (α : ℚ) (xs : List ℚ) :
    WfStores (fromStream idx α xs) := by
  rw [fromStream_eq]
  exact ⟨Buckets.Wf_ofList _, Buckets.Wf_ofList _⟩

theorem expand_profile_perm (idx : ℚ → ℤ) (val : ℤ → ℚ) (α : ℚ) (xs : List ℚ) :
    (expandRuns (profile val (fromStream idx α xs))).Perm
      (xs.map (estimateOf idx val)) := by
  rw [fromStream_eq]
  unfold profile
  simp only []
  rw [Buckets.expandRuns_append, Buckets.expandRuns_cons]
  have hneg : (expandRuns (((Buckets.ofList (negIndices idx xs)).reverse).map
      (fun p => (-(val p.1), p.2)))).Perm
      ((xs.filter (fun v => decide (v < 0))).map (estimateOf idx val)) := by
    rw [Buckets.expandRuns_map_fst (fun i => -(val i))]
    refine ((Buckets.expandRuns_reverse_perm _).map _).trans ?_
    refine ((Buckets.expand_ofList_perm (negIndices idx xs)).map _).trans ?_
    unfold negIndices
    rw [List.map_map]
    have hcongr : ∀ v ∈ xs.filter (fun v => decide (v < 0)),
        ((fun i => -(val i)) ∘ (fun v => idx (-v))) v = estimateOf idx val v := by
      intro v hv
      have hvneg : v < 0 := of_decide_eq_true (List.mem_filter.mp hv).2
      unfold estimateOf
      rw [if_neg (by linarith), if_neg (by linarith)]
      rfl
    rw [List.map_congr_left hcongr]
  have hposp : (expandRuns ((Buckets.ofList (posIndices idx xs)).map
      (fun p => ((val p.1 : ℚ), p.2)))).Perm
      ((xs.filter (fun v => decide (0 < v))).map (estimateOf idx val)) := by
    rw [Buckets.expandRuns_map_fst (fun i => (val i : ℚ))]
    refine ((Buckets.expand_ofList_perm (posIndices idx xs)).map _).trans ?_
    unfold posIndices
    rw [List.map_map]
    have hcongr : ∀ v ∈ xs.filter (fun v => decide (0 < v)),
        ((fun i => (val i : ℚ)) ∘ idx) v = estimateOf idx val v := by
      intro v hv
      have hvpos : 0 < v := of_decide_eq_true (List.mem_filter.mp hv).2
      unfold estimateOf
      rw [if_neg (by linarith), if_pos hvpos]
      rfl
    rw [List.map_congr_left hcongr]
  have hzero : List.replicate (zeroCountOf xs) (0 : ℚ) =
      (xs.filter (fun v => decide (v = 0))).map (estimateOf idx val) := by
    have h1 : ∀ b ∈ (xs.filter (fun v => decide (v = 0))).map (estimateOf idx val),
        b = (0 : ℚ) := by
      intro b hb
      rw [List.mem_map] at hb
      obtain ⟨v, hv, hbv⟩ := hb
      have hv0 : v = 0 := of_decide_eq_true (List.mem_filter.mp hv).2
      rw [← hbv, hv0]
      unfold estimateOf
      rw [if_pos rfl]
    have h2 := List.eq_replicate_of_mem h1
    rw [h2, List.length_map]
    rfl
  rw [hzero]
  refine ((hneg.append (List.Perm.append (List.Perm.refl _) hposp)).trans ?_)
  rw [← List.map_append, ← List.map_append]
  exact (filter_sign_partition xs).map _

theorem expand_profile_eq (idx : ℚ → ℤ) (val : ℤ → ℚ) (α : ℚ) (xs : List ℚ)
    (hidx : ∀ u w : ℚ, 0 < u → u ≤ w → idx u ≤ idx w)
    (hval : Monotone val) (hpos : ∀ i, 0 < val i) :
    expandRuns (profile val (fromStream idx α xs)) =
      (List.insertionSort (· ≤ ·) xs).map (estimateOf idx val) := by
  refine @List.eq_of_perm_of_sorted ℚ (· ≤ ·) inferInstance _ _ ?_ ?_ ?_
  · refine (expand_profile_perm idx val α xs).trans ?_
    exact (((List.perm_insertionSort (· ≤ ·) xs).map (estimateOf idx val)).symm)
  · exact Buckets.sorted_expandRuns
      (profile_runs_sorted val (WfStores_fromStream idx α xs) hval hpos)
  · have hs := List.sorted_insertionSort (· ≤ ·) xs
    exact List.Pairwise.map _ (fun a b hab => estimateOf_monotone idx val hidx hval hpos hab) hs

/-- C1: for every stream of samples inserted into a DDSketch (exact
arithmetic, no bucket collapse) whose mapping satisfies the spec's contract —
index monotone on positive values, reconstruction `val` monotone, positive,
and α-accurate — and every `q ∈ [0,1]`, the quantile estimate satisfies
`|quantile(q) − true_quantile(S,q)| / |true_quantile(S,q)| ≤ α`, where
`true_quantile` is the rank-`max(1,⌈q·|S|⌉)` order statistic (no rank-rounding
slack is needed at this rank convention). -/
theorem quantile_relative_error (idx : ℚ → ℤ) (val : ℤ → ℚ) (α : ℚ) (hα : 0 ≤ α)
    (hidx : ∀ u w : ℚ, 0 < u → u ≤ w → idx u ≤ idx w)
    (hval : Monotone val) (hpos : ∀ i, 0 < val i)
    (hacc : ∀ v : ℚ, 0 < v → |val (idx v) - v| ≤ α * v)
    (xs : List ℚ) (hxs : xs ≠ []) (q : ℚ) (hq0 : 0 ≤ q) (hq1 : q ≤ 1) :
    ∃ est, quantile val q (fromStream idx α xs) = .ok est ∧
      |est - trueQuantile q xs| / |trueQuantile q xs| ≤ α := by
  have hn : 1 ≤ xs.length := by
    have := List.length_pos.mpr hxs
    omega
  have hcount : (fromStream idx α xs).count = xs.length := fromStream_count idx α xs
  have hr1 : 1 ≤ rankOf q xs.length := rankOf_pos q xs.length
  have hrle : rankOf q xs.length ≤ (xs.length : ℤ) := rankOf_le hq1 hn
  have hexp := expand_profile_eq idx val α xs hidx hval hpos
  have hlen : runsTotal (profile val (fromStream idx α xs)) = xs.length := by
    rw [← Buckets.length_expandRuns, hexp, List.length_map, List.length_insertionSort]
  unfold quantile
  rw [if_neg (by push_neg; exact ⟨hq0, hq1⟩), if_neg (by rw [hcount]; omega), hcount]
  rw [findCross_eq_getD _ _ hr1 (by rw [hlen]; exact hrle)]
  refine ⟨_, rfl, ?_⟩
  rw [hexp]
  have hidxlt : (rankOf q xs.length - 1).toNat < (List.insertionSort (· ≤ ·) xs).length := by
    rw [List.length_insertionSort]
    omega
  rw [getD_map_of_lt hidxlt]
  have hkey : ∀ t : ℚ, |estimateOf idx val t - t| ≤ α * |t| := by
    intro t
    rcases lt_trichotomy t 0 with ht | ht | ht
    · unfold estimateOf
      rw [if_neg (by linarith), if_neg (by linarith)]
      have h := hacc (-t) (by linarith)
      rw [abs_of_neg ht]
      have h2 : |-val (idx (-t)) - t| = |val (idx (-t)) - -t| := by
        rw [show -val (idx (-t)) - t = -(val (idx (-t)) - -t) from by ring, abs_neg]
      rw [h2]
      exact h
    · subst ht
      unfold estimateOf
      rw [if_pos rfl]
      simp
    · unfold estimateOf
      rw [if_neg (by linarith), if_pos ht]
      rw [abs_of_pos ht]
      exact hacc t ht
  have htq : trueQuantile q xs =
      (List.insertionSort (· ≤ ·) xs).getD (rankOf q xs.length - 1).toNat 0 := rfl
  rw [← htq]
  by_cases ht0 : trueQuantile q xs = 0
  · rw [ht0]
    simp [estimateOf, hα]
  · rw [div_le_iff₀ (abs_pos.mpr ht0)]
    exact hkey (trueQuantile q xs)

end DDSketch

namespace DDSketch

/-- Witness for C1: the dyadic mapping `idx = Int.log 2`, `val i = 2^i`,
which satisfies the contract at `α = 1`, on the stream `[1, 2]` at `q = 1/2`. -/
theorem quantile_relative_error_witness :
    (0 : ℚ) ≤ 1 ∧ ([(1 : ℚ), 2] ≠ []) ∧
      ∃ est, quantile (fun i => (2 : ℚ) ^ i) (1 / 2)
          (fromStream (fun v => Int.log 2 v) 1 [1, 2]) = .ok est ∧
        |est - trueQuantile (1 / 2) [1, 2]| / |trueQuantile (1 / 2) [1, 2]| ≤ 1 := by
  refine ⟨by norm_num, by simp, ?_⟩
  refine quantile_relative_error (fun v => Int.log 2 v) (fun i => (2 : ℚ) ^ i) 1
    (by norm_num) ?_ ?_ ?_ ?_ [1, 2] (by simp) (1 / 2) (by norm_num) (by norm_num)
  · intro u w hu huw
    exact Int.log_mono_right hu huw
  · intro a b hab
    exact zpow_le_zpow_right₀ (by norm_num) hab
  · intro i
    exact zpow_pos (by norm_num) i
  · intro v hv
    have h1 : (2 : ℚ) ^ (Int.log 2 v) ≤ v := by
      exact_mod_cast Int.zpow_log_le_self (by norm_num) hv
    have h2 : (0 : ℚ) < 2 ^ (Int.log 2 v) := zpow_pos (by norm_num) _
    rw [abs_sub_comm, abs_of_nonneg (by linarith), one_mul]
    linarith

end DDSketch
